import Mathlib

/-!
Verification of the postcss-at-js compilation/interpretation pipeline.

This development gives a shallow embedding, in Lean, of the parts of the
postcss-at-js source that the verified properties talk about:

* the runtime value-classification engine (`interpretObject`,
  `interpretUnknown` and the interpretation main loop from `runtime.ts`),
* the guarded region and error tagging synthesized by `compileContainer`
  (`compile.ts`),
* the fragment validator `userCode` (`syntax.ts`),
* the per-scope globals cache `loadGlobals` (`compile.ts`),
* the structural at-js marker check `checkInvalidAtJs` (`compile.ts`),
* the provenance location arithmetic `computeLoc` and the `SourceMap`
  character traversal (`script.ts`).

JavaScript values that the interpreter can receive are modelled by the
inductive type `Value`; postcss child nodes by `DocNode`; machine details
that no verified property depends on (raws/formatting metadata, postcss
source spans attached to freshly created nodes, and the rendered message
text of error dumps) are abstracted: a classification error carries the
offending value itself, standing for the bounded-depth dump that the
implementation interpolates into the message.
-/

namespace AtJs

/-- postcss child nodes, as far as the interpreter constructs or forwards
them: at-rules (whose block is optional), rules, declarations and
comments. -/
inductive DocNode where
  | atRule (name : String) (params : String) (nodes : Option (List DocNode))
  | rule (selector : String) (nodes : List DocNode)
  | decl (prop : String) (value : String)
  | comment (text : String)
deriving Repr

mutual
/-- JavaScript values flowing through the interpretation engine.
`obj` is a plain mapping (prototype null or Object.prototype), `iter` an
(a)synchronously iterable object, `node` a postcss child node, `exotic` an
object that is neither interpretable nor carries its own toString (its
`toString` is `Object.prototype.toString`), `custom` a non-interpretable
object carrying its own toString whose rendering is the given string,
`beginJs`/`endJs` the sentinel marker instances, and `fn` a function. -/
inductive Value where
  | undef
  | jsNull
  | vstr (s : String)
  | vnum (n : Int)
  | vbool (b : Bool)
  | exotic (id : Nat)
  | custom (s : String)
  | obj (entries : List (String × Value))
  | iter (items : List Value)
  | node (n : DocNode)
  | beginJs (offset : Nat) (pos : Nat)
  | endJs (success : Bool)
  | fn (f : Fn)

/-- Functions, as the interpreter can observe them: a function either
ignores its argument and returns a fixed value (`const`), or returns its
argument, defaulting to a fixed value when called with none (`argOr`).
This is exactly the observable behaviour the main loop exercises: a call
with one argument or a call with no argument. -/
inductive Fn where
  | const (v : Value)
  | argOr (d : Value)
end

/-- A value-classification error (`Unexpected` in `runtime.ts`); it
carries the offending value, standing for the bounded-depth `inspect`
dump interpolated into the thrown message. -/
inductive Err where
  | unexpected (v : Value)

/-- Model of `isIterable` from `utils.ts`: the value is an object with a
`Symbol.iterator` or `Symbol.asyncIterator` method. -/
def Value.isIterable : Value → Bool
  | .iter _ => true
  | _ => false

/-- Model of `isPlainObject` from `runtime.ts`: an object whose prototype is null
or `Object.prototype`. -/
def Value.isPlainObject : Value → Bool
  | .obj _ => true
  | _ => false

/-- Model of `Helper.isChildNode` from `runtime.ts`: a postcss child node. -/
def Value.isChildNode : Value → Bool
  | .node _ => true
  | _ => false

/-- Model of `isInterpretable` from `runtime.ts`. -/
def isInterpretable (v : Value) : Bool :=
  v.isIterable || v.isPlainObject || v.isChildNode

/-- Model of `isStringifiable` from `runtime.ts`: non-null, non-undefined, not a
function, not interpretable, and carrying its own `toString`.  On the
`Value` model this holds exactly for strings, numbers, booleans and
`custom` objects; `exotic` objects, the marker instances and plain
objects/iterables/nodes all fail one of the conjuncts. -/
def isStringifiable : Value → Bool
  | .vstr _ => true
  | .vnum _ => true
  | .vbool _ => true
  | .custom _ => true
  | _ => false

/-- Model of `String(value)` on a stringifiable value. -/
def stringOf : Value → String
  | .vstr s => s
  | .vnum n => toString n
  | .vbool b => if b then ("true") else ("false")
  | .custom s => s
  | _ => ("")

/-- Whitespace characters of the at-rule-name splitting regular
expression character class `[\t\n\f\r ]`. -/
def isWsCh (c : Char) : Bool :=
  c == Char.ofNat 9 || c == Char.ofNat 10 || c == Char.ofNat 12 ||
  c == Char.ofNat 13 || c == Char.ofNat 32

/-- CSS-meta characters of the lookahead alternative
of the same regular expression. -/
def isMetaCh (c : Char) : Bool :=
  c == Char.ofNat 34 || c == '#' || c == Char.ofNat 39 || c == '(' ||
  c == ')' || c == '/' || c == ';' || c == '[' || c == Char.ofNat 92 ||
  c == ']' || c == Char.ofNat 123 || c == Char.ofNat 125

/-- Model of `key.startsWith('@')`: does the mapping key begin with the at-rule
marker character? -/
def startsWithAt (k : String) : Bool :=
  match k.data with
  | c :: _ => c == '@'
  | [] => false

/-- The split performed by
the match of the regular expression over the key text after the marker:
the name runs up to the first whitespace-or-meta character; a whitespace
separator run is consumed, a meta character is kept in the params. -/
def splitName : List Char → List Char × List Char
  | [] => ([], [])
  | c :: cs =>
    if isWsCh c then ([], (c :: cs).dropWhile isWsCh)
    else if isMetaCh c then ([], c :: cs)
    else
      let r := splitName cs
      (c :: r.1, r.2)

mutual
/-- Model of `interpretUnknown` from `runtime.ts`: classify one value; iterables
are flattened depth-first (the implementation uses an explicit iterator
stack, which yields the same depth-first, left-to-right node sequence as
this structural recursion), plain mappings are interpreted entry by
entry, child nodes are forwarded, and everything else is a
classification error. -/
def interpretUnknown : Value → Except Err (List DocNode)
  | .iter items => interpretList items
  | .obj entries => interpretObject entries
  | .node n => Except.ok [n]
  | v => Except.error (.unexpected v)

/-- Depth-first flattening of the values produced by an iterable, each
re-entering `interpretUnknown` classification. -/
def interpretList : List Value → Except Err (List DocNode)
  | [] => Except.ok []
  | v :: vs => do
    let ns ← interpretUnknown v
    let ms ← interpretList vs
    Except.ok (ns ++ ms)

/-- Model of `interpretObject` from `runtime.ts`: each own enumerable entry, in
insertion order, produces one node.  A key starting with the marker
becomes an at-rule whose name/params are split at the first whitespace
or CSS-meta character; an interpretable value becomes its block, an
undefined value leaves it without a block, anything else is an error.  A
non-marker key with interpretable value becomes a rule; with a
stringifiable value, a declaration; anything else is an error. -/
def interpretObject : List (String × Value) → Except Err (List DocNode)
  | [] => Except.ok []
  | (k, v) :: rest => do
    let nodes ←
      if startsWithAt k then
        let sp := splitName (k.data.drop 1)
        let name := String.mk sp.1
        let params := String.mk sp.2
        if isInterpretable v then do
          let block ← interpretUnknown v
          Except.ok [DocNode.atRule name params (some block)]
        else
          match v with
          | .undef => Except.ok [DocNode.atRule name params none]
          | _ => Except.error (.unexpected v)
      else if isInterpretable v then do
        let block ← interpretUnknown v
        Except.ok [DocNode.rule k block]
      else if isStringifiable v then
        Except.ok [DocNode.decl k (stringOf v)]
      else
        Except.error (.unexpected v)
    let ms ← interpretObject rest
    Except.ok (nodes ++ ms)
end

/-- Calling a function with no argument, as `func()` does in the main
loop. -/
def Fn.applyNone : Fn → Value
  | .const v => v
  | .argOr d => d

/-- Calling a function with one argument, as `func(next.value)` does in
the main loop. -/
def Fn.applySome : Fn → Value → Value
  | .const v, _ => v
  | .argOr _, x => x

mutual
/-- Model of `mainLoop` from `runtime.ts`, as a state machine.  `stack` is the
iterator stack together with the current iterator (its head); `func` is
the pending continuation; `ret` models the loop variable `next` being
retained across an iteration, which the loop does exactly when a pending
continuation meets an `EndJs` marker — so the retained item is always an
`EndJs`, recorded here by its success flag.  Raws/formatting metadata
returned by finished iterators is not modelled (no verified property
mentions it), so the loop result is the produced node list or a
classification error. -/
def mainRun (stack : List (List Value)) (func : Option Fn)
    (ret : Option Bool) : Except Err (List DocNode) :=
  match ret with
  | some b =>
    match func with
    | some f =>
      mainClassify stack (if b then f.applyNone else Value.undef) (some b)
    | none => mainRun stack none none
  | none =>
    match stack, func with
    | [], _ => Except.ok []
    | [] :: rest, func => mainRun rest func none
    | (Value.endJs b :: vs) :: rest, some f =>
      mainClassify (vs :: rest)
        (if b then f.applyNone else Value.undef) (some b)
    | (v :: vs) :: rest, some f =>
      mainClassify (vs :: rest) (f.applySome v) none
    | (v :: vs) :: rest, none => mainClassify (vs :: rest) v none
termination_by
  2 * (sizeOf stack + (match func with | none => 0 | some f => sizeOf f) +
    (match ret with | none => 0 | some _ => 1))
decreasing_by
  all_goals simp_wf
  all_goals try omega
  all_goals
    first
    | (cases b <;> cases f <;> rename_i w <;> simp [Fn.applyNone] <;>
        first
        | omega
        | (cases w <;> simp <;> omega))
    | (cases f <;> rename_i w <;> simp [Fn.applySome] <;> omega)

/-- The value-classification cascade of one main-loop iteration:
`BeginJs` switches the provenance context (not modelled further),
`EndJs` is ignored, an iterable is pushed onto the iterator stack, a
plain mapping is interpreted entry-wise, a child node is forwarded, a
function becomes the pending continuation, `undefined` is skipped, and
anything else (including `null`) is a classification error. -/
def mainClassify (stack : List (List Value)) (value : Value)
    (ret : Option Bool) : Except Err (List DocNode) :=
  match value with
  | .beginJs _ _ => mainRun stack none ret
  | .endJs _ => mainRun stack none ret
  | .iter items => mainRun (items :: stack) none ret
  | .obj entries => do
    let ns ← interpretObject entries
    let ms ← mainRun stack none ret
    Except.ok (ns ++ ms)
  | .node n => do
    let ms ← mainRun stack none ret
    Except.ok (n :: ms)
  | .fn f => mainRun stack (some f) ret
  | .undef => mainRun stack none ret
  | v => Except.error (.unexpected v)
termination_by
  2 * (sizeOf stack + sizeOf value +
    (match ret with | none => 0 | some _ => 1)) + 1
end

/-- The main loop on the value stream produced by the compiled program
of one container. -/
def mainLoop (contents : List Value) : Except Err (List DocNode) :=
  mainRun [contents] none none

/-- Is the value a function? (`typeof value === 'function'`.) -/
def Value.isFn : Value → Bool
  | .fn _ => true
  | _ => false

/-- Repeated no-argument invocation of a pending continuation until a
non-function results, as performed by the main loop when the enclosing
region ends successfully. -/
def Fn.chase (f : Fn) : Value :=
  match h : f.applyNone with
  | .fn g => g.chase
  | .undef => Value.undef
  | .jsNull => Value.jsNull
  | .vstr s => Value.vstr s
  | .vnum n => Value.vnum n
  | .vbool b => Value.vbool b
  | .exotic id => Value.exotic id
  | .custom s => Value.custom s
  | .obj entries => Value.obj entries
  | .iter items => Value.iter items
  | .node n => Value.node n
  | .beginJs o p => Value.beginJs o p
  | .endJs s => Value.endJs s
termination_by sizeOf f
decreasing_by
  cases f <;> simp [Fn.applyNone] at h <;> subst h <;> simp <;> omega

/-- Model of `stringify` from `runtime.ts`: the coercion applied to a
declaration value or selector expression computed by guest code. -/
def stringifyM (v : Value) : Except Err String :=
  if isStringifiable v then Except.ok (stringOf v)
  else Except.error (.unexpected v)

/-- A thrown JavaScript value: either a primitive (on which property
writes are silently impossible) or an object, carrying the hidden
`errorSymbol` tag slot and an identity. -/
inductive Thrown where
  | prim (n : Int)
  | errObj (tag : Option Int) (id : Nat)

/-- Model of `handleError` from `runtime.ts`: `setProp(error, errorSymbol, pos,
false)` — tag the error with the position, without overwriting an
existing tag, and silently skipping primitives — then rethrow. -/
def handleErrorM (e : Thrown) (pos : Int) : Thrown :=
  match e with
  | .prim n => .prim n
  | .errObj none id => .errObj (some pos) id
  | .errObj (some t) id => .errObj (some t) id

/-- The guarded region that `compileContainer` wraps around a container
body that contains guest code:
the region body either completes, having emitted `body`, or throws
`e` when the cursor variable holds `cursor`; in the latter case the
program yields `EndJs(false)` after the emitted values and re-raises the
error through `handleError`. -/
def guardedRegion (body : List Value) (failure : Option (Thrown × Int)) :
    List Value × Option Thrown :=
  match failure with
  | none => (body, none)
  | some (e, cursor) =>
    (body ++ [Value.endJs false], some (handleErrorM e cursor))

/-- The expression-attempt program text built by `userCode` in
`syntax.ts`: prefix, fragment, stub, closing. -/
def exprTest (src stub : String) : String :=
  ("async function* f()\x7b return (\n") ++ src ++ stub ++ ("\n);\x7d")

/-- The statement-attempt prefix of `userCode`. -/
def stmtPrefix : String :=
  ("async function* f()\x7b\n")

/-- The statement-attempt program text built by `userCode`. -/
def stmtTest (src stub : String) : String :=
  stmtPrefix ++ src ++ stub ++ ("\n;\x7d")

/-- Model of `userCode` from `syntax.ts`, abstracted over the host parser.
`parseOk t` tells whether `Function(t)` compiles; `acorn`, when present,
maps a failing program text to the recovered error offset within it (or
none when it parses or reports no numeric position).  The result is the
`isExpression` flag of the `UserCode`, or the document position of the
raised syntax error: the fragment offset plus the acorn-recovered
position relative to the statement-attempt prefix, with the prefix
length itself — that is, the start of the fragment — as the fallback. -/
def userCodeM (parseOk : String → Bool)
    (acorn : Option (String → Option Nat)) (offset : Int)
    (src stub : String) : Except Int Bool :=
  if parseOk (exprTest src stub) then Except.ok true
  else if parseOk (stmtTest src stub) then Except.ok false
  else
    let p : Nat :=
      match acorn with
      | some parse => (parse (stmtTest src stub)).getD stmtPrefix.length
      | none => stmtPrefix.length
    Except.error (offset + (p : Int) - (stmtPrefix.length : Int))

/-- A file-scope key (`GlobalScope` in `compile.ts`): the input file of
the node's source, or none. -/
abbrev GScope := Option String

/-- The per-compilation globals state: the `GlobalEnv` map (as an
association list, newest binding first) plus, as ghost instrumentation
for the at-most-once property, the log of provider invocations. -/
structure GSt where
  env : List (GScope × Nat)
  calls : List GScope

/-- Model of `loadGlobals` from `compile.ts`: reuse the cached bindings for the
scope, or call the provider (passing the running environment) and cache
the result.  Bindings objects are identified by an opaque `Nat`. -/
def loadGlobals (provider : GScope → List (GScope × Nat) → Nat)
    (scope : GScope) (st : GSt) : Nat × GSt :=
  match st.env.lookup scope with
  | some b => (b, st)
  | none =>
    let b := provider scope st.env
    (b, { env := (scope, b) :: st.env, calls := st.calls ++ [scope] })

/-- A sequence of `loadGlobals` requests, one per file-scope change met
while compiling the document's containers (including non-contiguous
repeats of a scope and requests from nested containers, which all share
the one `GlobalEnv`). -/
def runLoads (provider : GScope → List (GScope × Nat) → Nat) :
    List GScope → GSt → GSt
  | [], st => st
  | s :: ss, st => runLoads provider ss (loadGlobals provider s st).2

/-- One statement of the generator function that `compileContainer`
synthesizes for a block: either something that yields a value (a cloned
plain node or a guest-code emission), or a `return` executed by a
block-level guest-code region. -/
inductive BStmt where
  | emit (v : Value)
  | exitBlock

/-- Running one per-block `async function*`: statements execute in
order; a `return` terminates this generator, discarding the remaining
statements of the same block. -/
def runBlock : List BStmt → List Value
  | [] => []
  | .emit v :: rest => v :: runBlock rest
  | .exitBlock :: _ => []

/-- The values a block emits when it contains no early exit. -/
def emits (l : List BStmt) : List Value :=
  l.filterMap fun s =>
    match s with
    | .emit v => some v
    | .exitBlock => none

/-- Running a container's block sequence: `compileContainer` chains the
per-block generators with `yield*`, so every block runs, one after the
other, each in its own generator. -/
def runBlocks (blocks : List (List BStmt)) : List Value :=
  (blocks.map runBlock).flatten

/-- Scan of one quoted string literal, after its opening quote `q`:
mirrors the regular-expression alternative — a run of
non-backslash-non-quote characters or a backslash followed by any
non-line-terminator character, repeated, then the closing quote.
Returns the matched characters (closing quote included) and the rest,
or none when the literal never closes. -/
def scanLit (q : Char) : List Char → Option (List Char × List Char)
  | [] => none
  | c :: cs =>
    if c == q then some ([c], cs)
    else if c == Char.ofNat 92 then
      match cs with
      | [] => none
      | d :: ds =>
        if d == Char.ofNat 10 || d == Char.ofNat 13 ||
            d == Char.ofNat 8232 || d == Char.ofNat 8233 then none
        else
          match scanLit q ds with
          | some (u, r) => some (c :: d :: u, r)
          | none => none
    else
      match scanLit q cs with
      | some (u, r) => some (c :: u, r)
      | none => none

/-- The global replace of
complete single- or double-quoted string literals (not preceded by a
backslash) by `*`-runs of the same length, as performed by the `mask`
step of `checkInvalidAtJs`.  `prevBs` tells whether the previous
character of the original text is a backslash (the lookbehind); `fuel`
is an upper bound on the remaining length, making the scan structural. -/
def maskAux : Nat → Bool → List Char → List Char
  | 0, _, _ => []
  | _ + 1, _, [] => []
  | fuel + 1, prevBs, c :: cs =>
    if (c == Char.ofNat 39 || c == Char.ofNat 34) && !prevBs then
      match scanLit c cs with
      | some (u, r) => ('*' :: u.map fun _ => '*') ++ maskAux fuel false r
      | none => c :: maskAux fuel false cs
    else
      c :: maskAux fuel (c == Char.ofNat 92) cs

/-- Mask complete quoted string literals of a text. -/
def maskQuoted (s : List Char) : List Char :=
  maskAux s.length false s

/-- Does the text begin with the marker token `@js`? -/
def hasAtJsHead : List Char → Bool
  | a :: b :: c :: _ => a == '@' && b == 'j' && c == 's'
  | _ => false

/-- Model of `indexOf('@js')`: position of the first occurrence of the marker
token. -/
def firstAtJs : List Char → Option Nat
  | [] => none
  | c :: cs =>
    if hasAtJsHead (c :: cs) then some 0
    else (firstAtJs cs).map (· + 1)

/-- Model of `checkInvalidAtJs` from `compile.ts`: mask complete quoted string
literals, then report the position (shifted by `offset`) of the first
remaining occurrence of the marker token; none means no error is
raised. -/
def checkInvalidAtJs (src : List Char) (offset : Nat) : Option Nat :=
  (firstAtJs (maskQuoted src)).map (offset + ·)

/-- JavaScript whitespace (`\s`). -/
def isJsSpace (c : Char) : Bool :=
  isWsCh c || c == Char.ofNat 11 || c == Char.ofNat 160 ||
  c == Char.ofNat 5760 ||
  (8192 ≤ c.toNat && c.toNat ≤ 8202) ||
  c == Char.ofNat 8232 || c == Char.ofNat 8233 || c == Char.ofNat 8239 ||
  c == Char.ofNat 8287 || c == Char.ofNat 12288 || c == Char.ofNat 65279

/-- The test
deciding whether a declaration value begins with the marker (and is
compiled as guest code instead of being checked for invalid marker
use): `@js` followed by whitespace, a CSS-meta character, or the end of
the value. -/
def declValueAtJs : List Char → Bool
  | '@' :: 'j' :: 's' :: rest =>
    match rest with
    | [] => true
    | d :: _ => isJsSpace d || isMetaCh d
  | _ => false

/-- The declaration-value handling of `compileContainerChildren`: a
value beginning with the marker is compiled (no structural check); any
other value is checked for invalid marker use. -/
def declValueCheck (value : List Char) (offset : Nat) : Option Nat :=
  if declValueAtJs value then none
  else checkInvalidAtJs value offset

/-- The selector-component test of `compileSelector`:
a component of the guest-code form starts with the marker pseudo-form
and ends with the closing parenthesis. -/
def selIsJsForm (sel : List Char) : Bool :=
  (match sel with
    | a :: b :: c :: d :: e :: _ =>
      a == ':' && b == '@' && c == 'j' && d == 's' && e == '('
    | _ => false) &&
  (match sel.getLast? with
    | some c => c == ')'
    | none => false)

/-- The per-component selector handling of `compileSelector`: a
component of the guest-code form is compiled; every other component is
checked for invalid marker use at its start offset within the
selector. -/
def selectorCheck (sel : List Char) (start : Nat) : Option Nat :=
  if selIsJsForm sel then none
  else checkInvalidAtJs sel start

/-- The `offset` field of a provenance tag: a number, null (meaning
position-invariant) or undefined. -/
inductive OffField where
  | num (n : Int)
  | onull
  | oundef

/-- A source-location descriptor (`Loc` in `script.ts`): undefined, a
postcss `Source` (identified opaquely), the `'relative'` marker, or a
nested tag `{source, offset}`. -/
inductive Loc where
  | lundef
  | lrelative
  | lsource (sid : Nat)
  | nest (source : Loc) (off : OffField)

/-- The chain walk of `computeLoc`: unwrap nested tags, adding numeric
offsets (undefined adds nothing) and recording whether a null offset
was met (which zeroes the per-character increment). -/
def locWalk : Loc → Int → Bool → Loc × Int × Bool
  | .nest s off, acc, z =>
    locWalk s
      (acc + (match off with | .num n => n | _ => 0))
      (z || (match off with | .onull => true | _ => false))
  | t, acc, z => (t, acc, z)

/-- Model of `ComputedLoc`: resolved source (none when unlocated), accumulated
offset, and whether the per-character increment is 1 (`inc = true`) or 0. -/
structure CLoc where
  source : Option Nat
  offset : Int
  inc : Bool

/-- Model of `computeLoc(loc, from)` where, as in `SourceMap.force`, `from` is
the pair of the enclosing code's computed location `base` and the
relative offset `rel = cursor - start`: a chain ending in `'relative'`
inherits the base source shifted by `rel` plus the chain's offsets with
a zero per-character increment; a chain ending in a source maps there
with the summed offsets; otherwise the text is unlocated. -/
def computeLocFrom (loc : Loc) (base : CLoc) (rel : Int) : CLoc :=
  match locWalk loc 0 false with
  | (.lrelative, s, _) =>
    { source := base.source, offset := base.offset + rel + s, inc := false }
  | (.lsource sid, s, z) => { source := some sid, offset := s, inc := !z }
  | (_, s, z) => { source := none, offset := s, inc := !z }

/-- A provenance-tracked code tree (`NestedCode`): leaves are literal
text, inner nodes carry a location descriptor. -/
inductive NCode where
  | text (s : List Char)
  | code (loc : Loc) (children : List NCode)

/-- The state of the `SourceMap.force` traversal: the source cursor,
the output position, and the accumulated position-to-(source, offset)
assignments. -/
structure FSt where
  cursor : Nat
  position : Nat
  omap : List (Nat × Nat × Int)
deriving DecidableEq

mutual
/-- One step of the `SourceMap.force` traversal (the `translate` call):
a text leaf, when its context has a source, maps each of its characters
to `offset + (cursor - start) * inc + i * inc` and advances the cursor
by its length times the increment; the output position always advances.
A code node computes its own location from the context and starts a
fresh `start` cursor mark for its children. -/
def goItem (cl : CLoc) (start : Nat) (st : FSt) : NCode → FSt
  | .text s =>
    match cl.source with
    | some sid =>
      let inc : Nat := if cl.inc then 1 else 0
      let off : Int := cl.offset + ((st.cursor - start) * inc : Nat)
      { cursor := st.cursor + s.length * inc
        position := st.position + s.length
        omap := st.omap ++ (List.range s.length).map
          fun i => (st.position + i, sid, off + (i * inc : Nat)) }
    | none => { st with position := st.position + s.length }
  | .code loc children =>
    let cl2 := computeLocFrom loc cl ((st.cursor - start : Nat) : Int)
    goList cl2 st.cursor st children

/-- Traverse the children of a code node, left to right. -/
def goList (cl : CLoc) (start : Nat) (st : FSt) : List NCode → FSt
  | [] => st
  | n :: ns => goList cl start (goItem cl start st n) ns
end

/-- The initial context of `SourceMap.force`: `computeLoc()` with
cursor and position 0. -/
def initCL : CLoc :=
  { source := none, offset := 0, inc := true }

/-- Build the source map of a code tree, as `SourceMap.force` does. -/
def sourceMapOf (root : NCode) : FSt :=
  goItem initCL 0 { cursor := 0, position := 0, omap := [] } root

/-- A chain of tagged ancestors over a terminal location: each list
element is the `offset` field of one ancestor, outermost first. -/
def mkChain : List OffField → Loc → Loc
  | [], t => t
  | o :: os, t => Loc.nest (mkChain os t) o

/-- The specification's accumulated offset of a chain of tagged
ancestors: the sum of the numeric offset fields (null and undefined
fields contribute nothing). -/
def chainSum (offs : List OffField) : Int :=
  (offs.map fun o =>
    match o with
    | .num n => n
    | _ => 0).sum

/-- Does some ancestor of the chain carry a null offset? -/
def chainNull (offs : List OffField) : Bool :=
  offs.any fun o =>
    match o with
    | .onull => true
    | _ => false

/-- The at-rule name as the specification describes it: the key text
after the marker, up to the first whitespace or CSS-meta character. -/
def atNameSpec (k : String) : String :=
  String.mk ((k.data.drop 1).takeWhile fun c => !(isWsCh c || isMetaCh c))

/-- The at-rule params as the specification describes them: the
remainder of the key text, the whitespace separator excluded. -/
def atParamsSpec (k : String) : String :=
  String.mk (((k.data.drop 1).dropWhile
    fun c => !(isWsCh c || isMetaCh c)).dropWhile isWsCh)

theorem splitName_eq (l : List Char) :
    splitName l =
      (l.takeWhile (fun c => !(isWsCh c || isMetaCh c)),
        (l.dropWhile (fun c => !(isWsCh c || isMetaCh c))).dropWhile isWsCh) := by
  induction l with
  | nil => simp [splitName]
  | cons c cs ih =>
    by_cases hw : isWsCh c
    · simp [splitName, hw, List.dropWhile_cons]
    · by_cases hm : isMetaCh c
      · simp [splitName, hw, hm, List.dropWhile_cons]
      · simp [splitName, hw, hm, List.dropWhile_cons, ih]

/-- C1: on a plain mapping, each entry produces exactly one node, by the
classification of the source's `interpretObject`: a marker key with an
interpretable value yields an at-rule (name and params split at the
first whitespace or CSS-meta character) whose block interprets the
value; a marker key with an undefined value yields a blockless at-rule;
a marker key with any other value is a classification error; a
non-marker key with an interpretable value yields a rule; with a
stringifiable value, a declaration carrying the string form; and any
other combination is a classification error. -/
theorem c1_object_classification (k : String) (v : Value)
    (rest : List (String × Value)) :
    (startsWithAt k = true → isInterpretable v = true →
      interpretObject ((k, v) :: rest) = do
        let block ← interpretUnknown v
        let ms ← interpretObject rest
        Except.ok (DocNode.atRule (atNameSpec k) (atParamsSpec k)
          (some block) :: ms))
  ∧ (startsWithAt k = true → v = Value.undef →
      interpretObject ((k, v) :: rest) = do
        let ms ← interpretObject rest
        Except.ok (DocNode.atRule (atNameSpec k) (atParamsSpec k)
          none :: ms))
  ∧ (startsWithAt k = true → isInterpretable v = false →
      v ≠ Value.undef →
      interpretObject ((k, v) :: rest) = Except.error (.unexpected v))
  ∧ (startsWithAt k = false → isInterpretable v = true →
      interpretObject ((k, v) :: rest) = do
        let block ← interpretUnknown v
        let ms ← interpretObject rest
        Except.ok (DocNode.rule k block :: ms))
  ∧ (startsWithAt k = false → isInterpretable v = false →
      isStringifiable v = true →
      interpretObject ((k, v) :: rest) = do
        let ms ← interpretObject rest
        Except.ok (DocNode.decl k (stringOf v) :: ms))
  ∧ (startsWithAt k = false → isInterpretable v = false →
      isStringifiable v = false →
      interpretObject ((k, v) :: rest) = Except.error (.unexpected v)) := by
  have hsplit : splitName (k.data.drop 1) =
      ((atNameSpec k).data, (atParamsSpec k).data) := by
    simp [splitName_eq, atNameSpec, atParamsSpec]
  refine ⟨?_, ?_, ?_, ?_, ?_, ?_⟩
  · intro h1 h2
    simp only [interpretObject, h1, h2, hsplit, if_true]
    cases hb : interpretUnknown v <;>
      cases hr : interpretObject rest <;>
        simp [Bind.bind, Except.bind, atNameSpec, atParamsSpec]
  · intro h1 h2
    subst h2
    simp only [interpretObject, h1, if_true, hsplit]
    cases hr : interpretObject rest <;>
      simp [Bind.bind, Except.bind, isInterpretable, Value.isIterable,
        Value.isPlainObject, Value.isChildNode, atNameSpec, atParamsSpec]
  · intro h1 h2 h3
    simp only [interpretObject, h1, h2, if_true]
    cases v <;> simp_all [Bind.bind, Except.bind]
  · intro h1 h2
    simp only [interpretObject, h1, h2, if_false]
    cases hb : interpretUnknown v <;>
      cases hr : interpretObject rest <;>
        simp [Bind.bind, Except.bind]
  · intro h1 h2 h3
    simp only [interpretObject, h1, h2, h3, if_false]
    cases hr : interpretObject rest <;>
      simp [Bind.bind, Except.bind]
  · intro h1 h2 h3
    simp only [interpretObject, h1, h2, h3, if_false]
    simp [Bind.bind, Except.bind]

theorem c1_witness :
    startsWithAt ("@media screen") = true ∧
    isInterpretable (Value.obj [(("color"), Value.vstr ("red"))]) = true ∧
    interpretObject
        [(("@media screen"), Value.obj [(("color"), Value.vstr ("red"))])] =
      Except.ok [DocNode.atRule ("media") ("screen")
        (some [DocNode.decl ("color") ("red")])] := by
  refine ⟨by decide, by decide, ?_⟩
  rw [(c1_object_classification ("@media screen")
    (Value.obj [(("color"), Value.vstr ("red"))]) []).1 (by decide) (by decide)]
  have h2 := (c1_object_classification ("color") (Value.vstr ("red")) []).2.2.2.2.1
    (by decide) (by decide) (by decide)
  simp only [interpretUnknown, h2]
  have : interpretObject ([] : List (String × Value)) = Except.ok [] := by
    simp [interpretObject]
  simp [this, Bind.bind, Except.bind, stringOf]
  constructor
  · decide
  · decide

theorem applyNone_fn_size (f g : Fn) (h : f.applyNone = Value.fn g) :
    sizeOf g < sizeOf f := by
  cases f <;> simp [Fn.applyNone] at h <;> subst h <;> simp <;> omega

theorem mainRun_pending_chain :
    ∀ (n : Nat) (f : Fn), sizeOf f ≤ n →
      ∀ stack : List (List Value),
        mainRun stack (some f) (some true) =
          mainClassify stack f.chase (some true) := by
  intro n
  induction n with
  | zero =>
    intro f hf
    exfalso
    cases f <;> simp at hf
  | succ n ih =>
    intro f hf stack
    have h1 : mainRun stack (some f) (some true) =
        mainClassify stack f.applyNone (some true) := by
      simp [mainRun]
    rw [h1]
    cases ha : f.applyNone with
    | fn g =>
      have h2 : mainClassify stack (Value.fn g) (some true) =
          mainRun stack (some g) (some true) := by
        simp [mainClassify]
      have hg : sizeOf g ≤ n := by
        have := applyNone_fn_size f g ha
        omega
      have hc : f.chase = g.chase := by
        rw [Fn.chase.eq_def, ha]
      rw [h2, ih g hg stack, hc]
    | undef => rw [Fn.chase.eq_def, ha]
    | jsNull => rw [Fn.chase.eq_def, ha]
    | vstr s => rw [Fn.chase.eq_def, ha]
    | vnum m => rw [Fn.chase.eq_def, ha]
    | vbool b => rw [Fn.chase.eq_def, ha]
    | exotic i => rw [Fn.chase.eq_def, ha]
    | custom s => rw [Fn.chase.eq_def, ha]
    | obj entries => rw [Fn.chase.eq_def, ha]
    | iter items => rw [Fn.chase.eq_def, ha]
    | node m => rw [Fn.chase.eq_def, ha]
    | beginJs o p => rw [Fn.chase.eq_def, ha]
    | endJs s => rw [Fn.chase.eq_def, ha]

theorem chase_not_fn :
    ∀ (n : Nat) (f : Fn), sizeOf f ≤ n → (f.chase).isFn = false := by
  intro n
  induction n with
  | zero =>
    intro f hf
    exfalso
    cases f <;> simp at hf
  | succ n ih =>
    intro f hf
    cases ha : f.applyNone with
    | fn g =>
      have hg : sizeOf g ≤ n := by
        have := applyNone_fn_size f g ha
        omega
      rw [Fn.chase.eq_def, ha]
      exact ih g hg
    | undef => rw [Fn.chase.eq_def, ha]; simp [Value.isFn]
    | jsNull => rw [Fn.chase.eq_def, ha]; simp [Value.isFn]
    | vstr s => rw [Fn.chase.eq_def, ha]; simp [Value.isFn]
    | vnum m => rw [Fn.chase.eq_def, ha]; simp [Value.isFn]
    | vbool b => rw [Fn.chase.eq_def, ha]; simp [Value.isFn]
    | exotic i => rw [Fn.chase.eq_def, ha]; simp [Value.isFn]
    | custom s => rw [Fn.chase.eq_def, ha]; simp [Value.isFn]
    | obj entries => rw [Fn.chase.eq_def, ha]; simp [Value.isFn]
    | iter items => rw [Fn.chase.eq_def, ha]; simp [Value.isFn]
    | node m => rw [Fn.chase.eq_def, ha]; simp [Value.isFn]
    | beginJs o p => rw [Fn.chase.eq_def, ha]; simp [Value.isFn]
    | endJs s => rw [Fn.chase.eq_def, ha]; simp [Value.isFn]

/-- C2: when a pending continuation meets a successful region end
(`EndJs(true)` before any further value), the main loop invokes it with
no argument; invocation results that are again functions re-enter the
pending slot, repeating (`Fn.chase`) until a non-function results,
which then enters `mainClassify` — the same classification a directly
yielded value enters. -/
theorem c2_continuation_law (f : Fn) (vs : List Value)
    (rest stack : List (List Value)) :
    (mainRun ((Value.endJs true :: vs) :: rest) (some f) none =
      mainClassify (vs :: rest) f.applyNone (some true))
  ∧ (mainRun stack (some f) (some true) =
      mainClassify stack f.chase (some true))
  ∧ ((f.chase).isFn = false)
  ∧ (∀ (w : Value) (ws : List Value) (rest2 : List (List Value)),
      mainRun ((w :: ws) :: rest2) none none =
        mainClassify (ws :: rest2) w none) := by
  refine ⟨?_, ?_, ?_, ?_⟩
  · simp [mainRun]
  · exact mainRun_pending_chain (sizeOf f) f le_rfl stack
  · exact chase_not_fn (sizeOf f) f le_rfl
  · intro w ws rest2
    cases w <;> simp [mainRun]

/-- C3: the guarded region synthesized by `compileContainer` reacts to
a thrown body by yielding `EndJs(false)` after whatever the body
emitted and re-raising the same error value, tagged through the hidden
symbol slot with the current cursor offset; and on the consuming side,
an `EndJs(false)` arriving while a continuation is pending makes the
main loop discard that continuation without invoking it. -/
theorem c3_endjs_false (body : List Value) (e : Thrown) (cursor : Int)
    (id : Nat) (f : Fn) (vs : List Value) (rest : List (List Value)) :
    ((guardedRegion body (some (e, cursor))).1 =
      body ++ [Value.endJs false])
  ∧ ((guardedRegion body (some (.errObj none id, cursor))).2 =
      some (.errObj (some cursor) id))
  ∧ (mainRun ((Value.endJs false :: vs) :: rest) (some f) none =
      mainRun (vs :: rest) none none) := by
  refine ⟨?_, ?_, ?_⟩
  · simp [guardedRegion]
  · simp [guardedRegion, handleErrorM]
  · have h1 : mainRun ((Value.endJs false :: vs) :: rest) (some f) none =
        mainClassify (vs :: rest) Value.undef (some false) := by
      simp [mainRun]
    have h2 : mainClassify (vs :: rest) Value.undef (some false) =
        mainRun (vs :: rest) none (some false) := by
      simp [mainClassify]
    have h3 : mainRun (vs :: rest) none (some false) =
        mainRun (vs :: rest) none none := by
      rw [mainRun]
    rw [h1, h2, h3]

/-- C7: in the main loop a yielded `undefined` is skipped — the loop
continues with no node and no error — while a yielded `null` raises a
classification error carrying the offending value; and the `stringify`
coercion used for declaration values and selector expressions rejects
`null` as well. -/
theorem c7_null_undefined_asymmetry (vs : List Value)
    (rest : List (List Value)) :
    (mainRun ((Value.undef :: vs) :: rest) none none =
      mainRun (vs :: rest) none none)
  ∧ (mainRun ((Value.jsNull :: vs) :: rest) none none =
      Except.error (Err.unexpected Value.jsNull))
  ∧ (stringifyM Value.jsNull =
      Except.error (Err.unexpected Value.jsNull)) := by
  refine ⟨?_, ?_, ?_⟩
  · have h1 : mainRun ((Value.undef :: vs) :: rest) none none =
        mainClassify (vs :: rest) Value.undef none := by
      simp [mainRun]
    have h2 : mainClassify (vs :: rest) Value.undef none =
        mainRun (vs :: rest) none none := by
      simp [mainClassify]
    rw [h1, h2]
  · have h1 : mainRun ((Value.jsNull :: vs) :: rest) none none =
        mainClassify (vs :: rest) Value.jsNull none := by
      simp [mainRun]
    have h2 : mainClassify (vs :: rest) Value.jsNull none =
        Except.error (Err.unexpected Value.jsNull) := by
      simp [mainClassify]
    rw [h1, h2]
  · simp [stringifyM, isStringifiable]

/-- C4: the fragment validator first attempts the parenthesized
expression form with the block stub, then, only on failure, the
statement form with the same stub; the first success determines the
expression flag; when both fail it raises an error at the fragment's
document offset plus the auxiliary-parser-recovered offset relative to
the statement prefix, or at the start of the fragment when no auxiliary
parser (or no recovered position) is available. -/
theorem c4_fragment_validator (parseOk : String → Bool)
    (parse : String → Option Nat) (offset : Int) (src stub : String)
    (p : Nat) :
    (parseOk (exprTest src stub) = true →
      ∀ acorn, userCodeM parseOk acorn offset src stub = Except.ok true)
  ∧ (parseOk (exprTest src stub) = false →
      parseOk (stmtTest src stub) = true →
      ∀ acorn, userCodeM parseOk acorn offset src stub = Except.ok false)
  ∧ (parseOk (exprTest src stub) = false →
      parseOk (stmtTest src stub) = false →
      parse (stmtTest src stub) = some p →
      userCodeM parseOk (some parse) offset src stub =
        Except.error (offset + (p : Int) - (stmtPrefix.length : Int)))
  ∧ (parseOk (exprTest src stub) = false →
      parseOk (stmtTest src stub) = false →
      userCodeM parseOk none offset src stub = Except.error offset)
  ∧ (parseOk (exprTest src stub) = false →
      parseOk (stmtTest src stub) = false →
      parse (stmtTest src stub) = none →
      userCodeM parseOk (some parse) offset src stub =
        Except.error offset) := by
  refine ⟨?_, ?_, ?_, ?_, ?_⟩
  · intro h1 acorn
    simp [userCodeM, h1]
  · intro h1 h2 acorn
    simp [userCodeM, h1, h2]
  · intro h1 h2 h3
    simp [userCodeM, h1, h2, h3]
  · intro h1 h2
    simp [userCodeM, h1, h2]
  · intro h1 h2 h3
    simp [userCodeM, h1, h2, h3]

theorem c4_witness :
    ((fun _ => false) (exprTest ("x") ("")) = false
      ∧ (fun _ => false) (stmtTest ("x") ("")) = false
      ∧ (fun _ => some 25) (stmtTest ("x") ("")) = some 25)
  ∧ userCodeM (fun _ => false) (some fun _ => some 25) 100 ("x") ("") =
      Except.error 104
  ∧ userCodeM (fun _ => false) none 100 ("x") ("") = Except.error 100 := by
  refine ⟨⟨rfl, rfl, rfl⟩, ?_, ?_⟩
  · have h := (c4_fragment_validator (fun _ => false) (fun _ => some 25)
      100 ("x") ("") 25).2.2.1 rfl rfl rfl
    rw [h]
    congr 1
  · exact (c4_fragment_validator (fun _ => false) (fun _ => some 25)
      100 ("x") ("") 25).2.2.2.1 rfl rfl

theorem lookup_cons_scope (s sc : GScope) (b : Nat)
    (env : List (GScope × Nat)) :
    ((sc, b) :: env).lookup s = if s = sc then some b else env.lookup s := by
  by_cases h : s = sc
  · subst h
    simp [List.lookup]
  · have hb : (s == sc) = false := by
      simp [h]
    simp [List.lookup, hb, h]

theorem runLoads_invariant (provider : GScope → List (GScope × Nat) → Nat) :
    ∀ (scopes : List GScope) (st : GSt),
      (st.calls.Nodup ∧ ∀ s, (st.env.lookup s).isSome ↔ s ∈ st.calls) →
      ((runLoads provider scopes st).calls.Nodup
        ∧ ∀ s, ((runLoads provider scopes st).env.lookup s).isSome ↔
            s ∈ (runLoads provider scopes st).calls)
      ∧ ∀ s, s ∈ (runLoads provider scopes st).calls ↔
          (s ∈ st.calls ∨ s ∈ scopes) := by
  intro scopes
  induction scopes with
  | nil =>
    intro st hJ
    refine ⟨hJ, ?_⟩
    intro s
    simp [runLoads]
  | cons sc ss ih =>
    intro st hJ
    obtain ⟨hnd, hlk⟩ := hJ
    have hrun : runLoads provider (sc :: ss) st =
        runLoads provider ss (loadGlobals provider sc st).2 := by
      simp [runLoads]
    cases hc : st.env.lookup sc with
    | some b =>
      have hst : (loadGlobals provider sc st).2 = st := by
        simp [loadGlobals, hc]
      rw [hrun, hst]
      have hmem : sc ∈ st.calls := by
        have := (hlk sc).mp
        simp [hc] at this
        exact this
      obtain ⟨hJ2, hm⟩ := ih st ⟨hnd, hlk⟩
      refine ⟨hJ2, ?_⟩
      intro s
      rw [hm s]
      simp only [List.mem_cons]
      constructor
      · intro h
        rcases h with h | h
        · exact Or.inl h
        · exact Or.inr (Or.inr h)
      · intro h
        rcases h with h | h | h
        · exact Or.inl h
        · exact Or.inl (h ▸ hmem)
        · exact Or.inr h
    | none =>
      have hnmem : sc ∉ st.calls := by
        intro hmem
        have := (hlk sc).mpr hmem
        simp [hc] at this
      have hst : (loadGlobals provider sc st).2 =
          { env := (sc, provider sc st.env) :: st.env,
            calls := st.calls ++ [sc] } := by
        simp [loadGlobals, hc]
      have hJ2 : ((loadGlobals provider sc st).2.calls.Nodup
          ∧ ∀ s, ((loadGlobals provider sc st).2.env.lookup s).isSome ↔
              s ∈ (loadGlobals provider sc st).2.calls) := by
        rw [hst]
        refine ⟨?_, ?_⟩
        · simp [List.nodup_append, hnd, hnmem]
        · intro s
          rw [lookup_cons_scope]
          by_cases hs : s = sc
          · subst hs
            simp
          · simp [hs, hlk s]
      obtain ⟨hJ3, hm⟩ := ih _ hJ2
      rw [hrun]
      refine ⟨hJ3, ?_⟩
      intro s
      rw [hm s, hst]
      simp only [List.mem_append, List.mem_singleton, List.mem_cons]
      tauto

/-- C5: within one compilation, the globals provider runs at most once
per distinct file-scope key: a scope already present in the `GlobalEnv`
map is served from the cache, with the provider un-invoked and the
state untouched; and over any sequence of scope requests (including
non-contiguous repeats) starting from the empty per-compilation state,
the provider-invocation log holds each requested scope exactly once. -/
theorem c5_globals_once (provider : GScope → List (GScope × Nat) → Nat)
    (scope : GScope) (st : GSt) (b : Nat) (scopes : List GScope) :
    (st.env.lookup scope = some b →
      loadGlobals provider scope st = (b, st))
  ∧ (runLoads provider scopes { env := [], calls := [] }).calls.Nodup
  ∧ (∀ s, s ∈ (runLoads provider scopes { env := [], calls := [] }).calls ↔
      s ∈ scopes) := by
  have base : (([] : List GScope).Nodup ∧
      ∀ s, (([] : List (GScope × Nat)).lookup s).isSome ↔
        s ∈ ([] : List GScope)) := by
    simp [List.lookup]
  obtain ⟨⟨hnd, _⟩, hm⟩ :=
    runLoads_invariant provider scopes { env := [], calls := [] } base
  refine ⟨?_, hnd, ?_⟩
  · intro h
    simp [loadGlobals, h]
  · intro s
    rw [hm s]
    simp

theorem c5_witness :
    ({ env := [(some ("a.css"), 7)], calls := [some ("a.css")] } :
        GSt).env.lookup (some ("a.css")) = some 7
  ∧ loadGlobals (fun _ _ => 99) (some ("a.css"))
      { env := [(some ("a.css"), 7)], calls := [some ("a.css")] } =
    (7, { env := [(some ("a.css"), 7)], calls := [some ("a.css")] }) := by
  refine ⟨by simp [List.lookup], ?_⟩
  exact (c5_globals_once (fun _ _ => 99) (some ("a.css"))
    { env := [(some ("a.css"), 7)], calls := [some ("a.css")] } 7 []).1
    (by simp [List.lookup])

theorem runBlock_no_exit (b1 : List BStmt) (b2 : List BStmt)
    (h : BStmt.exitBlock ∉ b1) :
    runBlock (b1 ++ BStmt.exitBlock :: b2) = emits b1 := by
  induction b1 with
  | nil => simp [runBlock, emits]
  | cons s rest ih =>
    cases s with
    | emit v =>
      have hr : BStmt.exitBlock ∉ rest := by
        intro hc
        exact h (List.mem_cons_of_mem _ hc)
      have he : emits (BStmt.emit v :: rest) = v :: emits rest := by
        simp [emits]
      rw [List.cons_append, he]
      rw [show runBlock (BStmt.emit v :: (rest ++ BStmt.exitBlock :: b2)) =
        v :: runBlock (rest ++ BStmt.exitBlock :: b2) from rfl]
      rw [ih hr]
    | exitBlock =>
      exfalso
      exact h (List.mem_cons_self _ _)

/-- C6: a `return` executed in a block-level guest region terminates
only the innermost block's synthesized generator: the remaining
statements of that block (guest or not) are discarded, while every
other block of the container — including sibling blocks introduced by a
file-scope change, before or after — runs in full, and the container
chaining itself is untouched. -/
theorem c6_early_exit (pre post : List (List BStmt)) (b1 b2 : List BStmt)
    (h : BStmt.exitBlock ∉ b1) :
    runBlocks (pre ++ (b1 ++ BStmt.exitBlock :: b2) :: post) =
      runBlocks pre ++ emits b1 ++ runBlocks post := by
  simp [runBlocks, runBlock_no_exit b1 b2 h]

theorem c6_witness :
    BStmt.exitBlock ∉ [BStmt.emit (Value.vnum 2)]
  ∧ runBlocks [[BStmt.emit (Value.vnum 1)],
      [BStmt.emit (Value.vnum 2), BStmt.exitBlock,
        BStmt.emit (Value.vnum 3)],
      [BStmt.emit (Value.vnum 4)]] =
    [Value.vnum 1, Value.vnum 2, Value.vnum 4] := by
  have hnm : BStmt.exitBlock ∉ [BStmt.emit (Value.vnum 2)] := by
    simp
  refine ⟨hnm, ?_⟩
  have h := c6_early_exit [[BStmt.emit (Value.vnum 1)]]
    [[BStmt.emit (Value.vnum 4)]] [BStmt.emit (Value.vnum 2)]
    [BStmt.emit (Value.vnum 3)] hnm
  simp only [List.cons_append, List.nil_append] at h
  rw [h]
  simp [runBlocks, runBlock, emits]

theorem scanLit_split (q : Char) (cs u r : List Char)
    (h : scanLit q cs = some (u, r)) : cs = u ++ r ∧ 0 < u.length := by
  induction cs using scanLit.induct q generalizing u r with
  | case1 =>
    rw [scanLit.eq_def] at h
    simp at h
  | case2 a b =>
    rename_i hq
    rw [scanLit.eq_def] at h
    simp [hq] at h
    obtain ⟨h1, h2⟩ := h
    subst h1
    subst h2
    simp
  | case3 a hq hbs =>
    have hq2 : (a == q) = false := by simpa using hq
    rw [scanLit.eq_def] at h
    simp [hq2, hbs] at h
  | case4 a hq hbs d e hd =>
    have hq2 : (a == q) = false := by simpa using hq
    rw [scanLit.eq_def] at h
    simp [hq2, hbs, hd] at h
  | case5 a hq hbs d e hd g r2 =>
    rename_i hscan ih
    have hq2 : (a == q) = false := by simpa using hq
    have hd2 : (d == Char.ofNat 10 || d == Char.ofNat 13 ||
        d == Char.ofNat 8232 || d == Char.ofNat 8233) = false := by
      simpa using hd
    rw [scanLit.eq_def] at h
    simp [hq2, hbs, hd2, hscan] at h
    obtain ⟨h1, h2⟩ := h
    subst h1
    subst h2
    obtain ⟨he, _⟩ := ih g r2 hscan
    constructor
    · rw [he]
      simp
    · simp
  | case6 a hq hbs d e hd hnone ih =>
    have hq2 : (a == q) = false := by simpa using hq
    have hd2 : (d == Char.ofNat 10 || d == Char.ofNat 13 ||
        d == Char.ofNat 8232 || d == Char.ofNat 8233) = false := by
      simpa using hd
    rw [scanLit.eq_def] at h
    simp [hq2, hbs, hd2, hnone] at h
  | case7 a b hq hbs e r2 =>
    rename_i hscan ih
    have hq2 : (a == q) = false := by simpa using hq
    have hbs2 : (a == Char.ofNat 92) = false := by simpa using hbs
    rw [scanLit.eq_def] at h
    simp [hq2, hbs2, hscan] at h
    obtain ⟨h1, h2⟩ := h
    subst h1
    subst h2
    obtain ⟨he, _⟩ := ih e r2 hscan
    constructor
    · rw [he]
      simp
    · simp
  | case8 a b hq hbs hnone ih =>
    have hq2 : (a == q) = false := by simpa using hq
    have hbs2 : (a == Char.ofNat 92) = false := by simpa using hbs
    rw [scanLit.eq_def] at h
    simp [hq2, hbs2, hnone] at h

theorem scanLit_plain (q : Char) (inner post : List Char)
    (hq : (q == Char.ofNat 92) = false)
    (hinner : ∀ c ∈ inner, (c == q) = false ∧ (c == Char.ofNat 92) = false) :
    scanLit q (inner ++ q :: post) = some (inner ++ [q], post) := by
  induction inner with
  | nil =>
    rw [scanLit.eq_def]
    simp
  | cons c cs ih =>
    obtain ⟨h1, h2⟩ := hinner c (List.mem_cons_self _ _)
    have hrec := ih fun x hx => hinner x (List.mem_cons_of_mem _ hx)
    rw [List.cons_append, scanLit.eq_def]
    simp [h1, h2, hrec]

theorem maskAux_fuel :
    ∀ (f1 f2 : Nat) (pb : Bool) (l : List Char),
      l.length ≤ f1 → l.length ≤ f2 → maskAux f1 pb l = maskAux f2 pb l := by
  intro f1
  induction f1 with
  | zero =>
    intro f2 pb l h1 h2
    have : l = [] := by
      cases l with
      | nil => rfl
      | cons c cs => simp at h1
    subst this
    cases f2 <;> simp [maskAux]
  | succ f1 ih =>
    intro f2 pb l h1 h2
    cases l with
    | nil => cases f2 <;> simp [maskAux]
    | cons c cs =>
      cases f2 with
      | zero => simp at h2
      | succ g =>
        simp only [List.length_cons, Nat.succ_le_succ_iff] at h1 h2
        by_cases hcond :
            ((c == Char.ofNat 39 || c == Char.ofNat 34) && !pb) = true
        · cases hscan : scanLit c cs with
          | some ur =>
            obtain ⟨u, r⟩ := ur
            have hsplit := scanLit_split c cs u r hscan
            have hr1 : r.length ≤ f1 := by
              have : cs.length = u.length + r.length := by
                rw [hsplit.1]
                simp
              omega
            have hr2 : r.length ≤ g := by
              have : cs.length = u.length + r.length := by
                rw [hsplit.1]
                simp
              omega
            simp only [maskAux, hcond, if_pos, hscan]
            rw [ih g false r hr1 hr2]
          | none =>
            simp only [maskAux, hcond, if_pos, hscan]
            rw [ih g false cs h1 h2]
        · have hcond2 :
              ((c == Char.ofNat 39 || c == Char.ofNat 34) && !pb) = false := by
            simpa using hcond
          simp only [maskAux, hcond2, Bool.false_eq_true, if_false]
          rw [ih g (c == Char.ofNat 92) cs h1 h2]

theorem maskAux_no_quotes :
    ∀ (fuel : Nat) (pb : Bool) (l : List Char), l.length ≤ fuel →
      (∀ c ∈ l, (c == Char.ofNat 39) = false ∧ (c == Char.ofNat 34) = false) →
      maskAux fuel pb l = l := by
  intro fuel
  induction fuel with
  | zero =>
    intro pb l h1 h2
    cases l with
    | nil => simp [maskAux]
    | cons c cs => simp at h1
  | succ fuel ih =>
    intro pb l h1 h2
    cases l with
    | nil => simp [maskAux]
    | cons c cs =>
      obtain ⟨hc1, hc2⟩ := h2 c (List.mem_cons_self _ _)
      have hcond :
          ((c == Char.ofNat 39 || c == Char.ofNat 34) && !pb) = false := by
        simp [hc1, hc2]
      simp only [List.length_cons, Nat.succ_le_succ_iff] at h1
      simp only [maskAux, hcond, Bool.false_eq_true, if_false]
      rw [ih (c == Char.ofNat 92) cs h1
        fun x hx => h2 x (List.mem_cons_of_mem _ hx)]

theorem maskQuoted_no_quotes (l : List Char)
    (h : ∀ c ∈ l, (c == Char.ofNat 39) = false ∧ (c == Char.ofNat 34) = false) :
    maskQuoted l = l :=
  maskAux_no_quotes l.length false l le_rfl h

theorem mask_literal (pre inner post : List Char) (q : Char)
    (hq : q = Char.ofNat 39 ∨ q = Char.ofNat 34)
    (hpre : ∀ c ∈ pre, (c == Char.ofNat 39) = false ∧
      (c == Char.ofNat 34) = false ∧ (c == Char.ofNat 92) = false)
    (hinner : ∀ c ∈ inner,
      (c == q) = false ∧ (c == Char.ofNat 92) = false) :
    maskQuoted (pre ++ q :: inner ++ q :: post) =
      pre ++ '*' :: (inner.map fun _ => '*') ++ '*' :: maskQuoted post := by
  induction pre with
  | nil =>
    have hqq : (q == Char.ofNat 39 || q == Char.ofNat 34) = true := by
      rcases hq with h | h <;> subst h <;> rfl
    have hqbs : (q == Char.ofNat 92) = false := by
      rcases hq with h | h <;> subst h <;> rfl
    have hscan := scanLit_plain q inner post hqbs hinner
    simp only [List.nil_append, maskQuoted, List.length_cons]
    simp only [maskAux, hqq, Bool.not_false, Bool.and_true, if_pos]
    simp only [List.append_eq]
    rw [hscan]
    dsimp only
    rw [maskAux_fuel (inner ++ q :: post).length post.length false post
      (by simp only [List.length_append, List.length_cons]; omega) le_rfl]
    simp [List.map_append]
  | cons c cs ih =>
    obtain ⟨hc1, hc2, hc3⟩ := hpre c (List.mem_cons_self _ _)
    have hcond :
        ((c == Char.ofNat 39 || c == Char.ofNat 34) && !false) = false := by
      simp [hc1, hc2]
    have ih2 := ih fun x hx => hpre x (List.mem_cons_of_mem _ hx)
    have ih3 : maskAux (cs ++ q :: inner ++ q :: post).length false
        (cs ++ q :: inner ++ q :: post) =
        cs ++ '*' :: (inner.map fun _ => '*') ++ '*' :: maskQuoted post := by
      simpa only [maskQuoted] using ih2
    simp only [List.cons_append, maskQuoted, List.length_cons]
    simp only [maskAux, hcond, Bool.false_eq_true, if_false, hc3]
    rw [ih3]
    simp only [maskQuoted]

theorem hasAtJsHead_long (l z : List Char) (h : 3 ≤ l.length) :
    hasAtJsHead (l ++ z) = hasAtJsHead l := by
  cases l with
  | nil => simp at h
  | cons a l1 =>
    cases l1 with
    | nil => simp at h
    | cons b l2 =>
      cases l2 with
      | nil => simp at h
      | cons c rest => rfl

theorem hasAtJsHead_true_len (l : List Char) (h : hasAtJsHead l = true) :
    3 ≤ l.length := by
  cases l with
  | nil => simp [hasAtJsHead] at h
  | cons a l1 =>
    cases l1 with
    | nil => simp [hasAtJsHead] at h
    | cons b l2 =>
      cases l2 with
      | nil => simp [hasAtJsHead] at h
      | cons c rest => simp

theorem firstAtJs_some_bound (l : List Char) :
    ∀ i, firstAtJs l = some i → i + 3 ≤ l.length := by
  induction l with
  | nil =>
    intro i h
    simp [firstAtJs] at h
  | cons c cs ih =>
    intro i h
    by_cases hh : hasAtJsHead (c :: cs) = true
    · simp [firstAtJs, hh] at h
      have := hasAtJsHead_true_len _ hh
      omega
    · have hh2 : hasAtJsHead (c :: cs) = false := by simpa using hh
      simp [firstAtJs, hh2] at h
      obtain ⟨j, hj, hi⟩ := h
      have := ih j hj
      simp
      omega

theorem firstAtJs_some_append (a z : List Char) (i : Nat)
    (h : firstAtJs a = some i) : firstAtJs (a ++ z) = some i := by
  induction a generalizing i with
  | nil => simp [firstAtJs] at h
  | cons c cs ih =>
    by_cases hh : hasAtJsHead (c :: cs) = true
    · simp [firstAtJs, hh] at h
      have hlen := hasAtJsHead_true_len _ hh
      have := hasAtJsHead_long (c :: cs) z hlen
      simp only [List.cons_append] at this ⊢
      simp [firstAtJs, this, hh, h]
    · have hh2 : hasAtJsHead (c :: cs) = false := by simpa using hh
      simp [firstAtJs, hh2] at h
      obtain ⟨j, hj, hi⟩ := h
      have hb := firstAtJs_some_bound cs j hj
      have hlen : 3 ≤ (c :: cs).length := by
        simp
        omega
      have hhl := hasAtJsHead_long (c :: cs) z hlen
      rw [hh2] at hhl
      simp only [List.cons_append] at hhl ⊢
      simp [firstAtJs, hhl, ih j hj, hi]

theorem hasAtJsHead_star_head (r : List Char) :
    hasAtJsHead ('*' :: r) = false := by
  cases r with
  | nil => rfl
  | cons b r2 =>
    cases r2 with
    | nil => rfl
    | cons c r3 =>
      simp [hasAtJsHead, show ('*' == '@') = false from rfl]

theorem hasAtJsHead_star_second (a : Char) (r : List Char) :
    hasAtJsHead (a :: '*' :: r) = false := by
  cases r with
  | nil => rfl
  | cons c r2 =>
    simp [hasAtJsHead, show ('*' == 'j') = false from rfl]

theorem hasAtJsHead_star_third (a b : Char) (r : List Char) :
    hasAtJsHead (a :: b :: '*' :: r) = false := by
  simp [hasAtJsHead, show ('*' == 's') = false from rfl]

theorem firstAtJs_stars (k : Nat) (rest : List Char) :
    firstAtJs (List.replicate k '*' ++ rest) =
      (firstAtJs rest).map (· + k) := by
  induction k with
  | zero =>
    cases hr : firstAtJs rest <;> simp [hr]
  | succ k ih =>
    have hstep : List.replicate (k + 1) '*' ++ rest =
        '*' :: (List.replicate k '*' ++ rest) := by
      simp [List.replicate_succ]
    rw [hstep]
    have hhead := hasAtJsHead_star_head (List.replicate k '*' ++ rest)
    simp [firstAtJs, hhead, ih]

theorem firstAtJs_none_parts (c : Char) (cs : List Char)
    (h : firstAtJs (c :: cs) = none) :
    hasAtJsHead (c :: cs) = false ∧ firstAtJs cs = none := by
  by_cases hh : hasAtJsHead (c :: cs) = true
  · simp [firstAtJs, hh] at h
  · have hh2 : hasAtJsHead (c :: cs) = false := by simpa using hh
    simp [firstAtJs, hh2] at h
    exact ⟨hh2, h⟩

theorem firstAtJs_none_append_star2 (pre w : List Char)
    (hp : firstAtJs pre = none) :
    firstAtJs (pre ++ '*' :: '*' :: w) =
      (firstAtJs ('*' :: '*' :: w)).map (· + pre.length) := by
  induction pre with
  | nil =>
    cases hr : firstAtJs ('*' :: '*' :: w) <;> simp [hr]
  | cons c cs ih =>
    obtain ⟨hh, hcs⟩ := firstAtJs_none_parts c cs hp
    have ih2 := ih hcs
    have hfalse : hasAtJsHead (c :: (cs ++ '*' :: '*' :: w)) = false := by
      cases cs with
      | nil => simpa using hasAtJsHead_star_second c ('*' :: w)
      | cons b cs2 =>
        cases cs2 with
        | nil => simpa using hasAtJsHead_star_third c b ('*' :: '*' :: w)
        | cons d cs3 =>
          have hl := hasAtJsHead_long (c :: b :: d :: cs3) ('*' :: '*' :: w)
            (by simp)
          simp only [List.cons_append] at hl
          exact hl.trans hh
    rw [show (c :: cs) ++ '*' :: '*' :: w =
      c :: (cs ++ '*' :: '*' :: w) from by simp]
    simp [firstAtJs, hfalse, ih2]

theorem stars_shape (X Y : List Char) :
    '*' :: (X.map fun _ => '*') ++ '*' :: Y =
      List.replicate (X.length + 2) '*' ++ Y := by
  induction X with
  | nil => simp [List.replicate_succ]
  | cons x xs ih =>
    calc '*' :: ((x :: xs).map fun _ => '*') ++ '*' :: Y
        = '*' :: (('*' :: (xs.map fun _ => '*')) ++ '*' :: Y) := by simp
      _ = '*' :: (List.replicate (xs.length + 2) '*' ++ Y) := by rw [ih]
      _ = List.replicate ((x :: xs).length + 2) '*' ++ Y := by
          simp [List.replicate_succ]

theorem checkInvalid_literal (pre inner post : List Char) (off : Nat)
    (q : Char)
    (hq : q = Char.ofNat 39 ∨ q = Char.ofNat 34)
    (hpre : ∀ c ∈ pre, (c == Char.ofNat 39) = false ∧
      (c == Char.ofNat 34) = false ∧ (c == Char.ofNat 92) = false)
    (hinner : ∀ c ∈ inner,
      (c == q) = false ∧ (c == Char.ofNat 92) = false) :
    (∀ i, firstAtJs pre = some i →
      checkInvalidAtJs (pre ++ q :: inner ++ q :: post) off = some (off + i))
  ∧ (firstAtJs pre = none → firstAtJs (maskQuoted post) = none →
      checkInvalidAtJs (pre ++ q :: inner ++ q :: post) off = none) := by
  have hm := mask_literal pre inner post q hq hpre hinner
  constructor
  · intro i hi
    simp only [checkInvalidAtJs]
    rw [hm, List.append_assoc]
    rw [firstAtJs_some_append pre _ i hi]
    rfl
  · intro h1 h2
    simp only [checkInvalidAtJs]
    rw [hm, List.append_assoc, stars_shape]
    rw [show List.replicate (inner.length + 2) '*' ++ maskQuoted post =
      '*' :: '*' :: (List.replicate inner.length '*' ++ maskQuoted post)
      from by simp [List.replicate_succ]]
    rw [firstAtJs_none_append_star2 pre _ h1]
    rw [show ('*' :: '*' ::
        (List.replicate inner.length '*' ++ maskQuoted post)) =
      List.replicate (inner.length + 2) '*' ++ maskQuoted post
      from by simp [List.replicate_succ]]
    rw [firstAtJs_stars, h2]
    rfl

theorem firstAtJs_spec (l : List Char) :
    ∀ i, firstAtJs l = some i →
      hasAtJsHead (l.drop i) = true ∧
        ∀ j, j < i → hasAtJsHead (l.drop j) = false := by
  induction l with
  | nil =>
    intro i h
    simp [firstAtJs] at h
  | cons c cs ih =>
    intro i h
    by_cases hh : hasAtJsHead (c :: cs) = true
    · simp [firstAtJs, hh] at h
      subst h
      exact ⟨hh, by omega⟩
    · have hh2 : hasAtJsHead (c :: cs) = false := by simpa using hh
      simp [firstAtJs, hh2] at h
      obtain ⟨j, hj, hi⟩ := h
      obtain ⟨hd, hall⟩ := ih j hj
      subst hi
      refine ⟨by simpa using hd, ?_⟩
      intro j2 hj2
      cases j2 with
      | zero => simpa using hh2
      | succ k =>
        have : k < j := by omega
        simpa using hall k this

/-- C10: in the structural marker check, any complete single- or
double-quoted string literal is masked out before the `@js` search:
masking replaces exactly the literal's span by stars, the check's
outcome cannot distinguish the literal's contents (so a marker inside
it never raises the error), a marker appearing first before the literal
is reported at its own position, and when no marker occurs outside the
literal the check passes. -/
theorem c10_string_literal_masking (pre inner inner2 post : List Char)
    (off : Nat) (q : Char)
    (hq : q = Char.ofNat 39 ∨ q = Char.ofNat 34)
    (hpre : ∀ c ∈ pre, (c == Char.ofNat 39) = false ∧
      (c == Char.ofNat 34) = false ∧ (c == Char.ofNat 92) = false)
    (hinner : ∀ c ∈ inner,
      (c == q) = false ∧ (c == Char.ofNat 92) = false)
    (hinner2 : ∀ c ∈ inner2,
      (c == q) = false ∧ (c == Char.ofNat 92) = false)
    (hlen : inner2.length = inner.length) :
    (maskQuoted (pre ++ q :: inner ++ q :: post) =
      pre ++ '*' :: (inner.map fun _ => '*') ++ '*' :: maskQuoted post)
  ∧ (checkInvalidAtJs (pre ++ q :: inner ++ q :: post) off =
      checkInvalidAtJs (pre ++ q :: inner2 ++ q :: post) off)
  ∧ (∀ i, firstAtJs pre = some i →
      checkInvalidAtJs (pre ++ q :: inner ++ q :: post) off =
        some (off + i))
  ∧ (firstAtJs pre = none → firstAtJs (maskQuoted post) = none →
      checkInvalidAtJs (pre ++ q :: inner ++ q :: post) off = none) := by
  obtain ⟨h3, h4⟩ := checkInvalid_literal pre inner post off q hq hpre hinner
  refine ⟨mask_literal pre inner post q hq hpre hinner, ?_, h3, h4⟩
  simp only [checkInvalidAtJs]
  rw [mask_literal pre inner post q hq hpre hinner,
    mask_literal pre inner2 post q hq hpre hinner2]
  rw [List.append_assoc, List.append_assoc, stars_shape, stars_shape, hlen]

theorem c10_witness :
    (∀ c ∈ (['a', ':', ' '] : List Char), (c == Char.ofNat 39) = false ∧
      (c == Char.ofNat 34) = false ∧ (c == Char.ofNat 92) = false)
  ∧ (∀ c ∈ (['@', 'j', 's'] : List Char),
      (c == Char.ofNat 39) = false ∧ (c == Char.ofNat 92) = false)
  ∧ checkInvalidAtJs
      (['a', ':', ' '] ++ Char.ofNat 39 :: ['@', 'j', 's'] ++
        Char.ofNat 39 :: []) 0 = none := by
  refine ⟨by decide, by decide, ?_⟩
  exact (c10_string_literal_masking ['a', ':', ' '] ['@', 'j', 's']
    ['x', 'y', 'z'] [] 0 (Char.ofNat 39) (Or.inl rfl)
    (by decide) (by decide) (by decide) (by decide)).2.2.2
    (by decide) (by decide)

theorem c8_counterexample :
    firstAtJs [Char.ofNat 39, '@', 'j', 's', Char.ofNat 39] = some 1
  ∧ checkInvalidAtJs [Char.ofNat 39, '@', 'j', 's', Char.ofNat 39] 0 =
      none := by
  refine ⟨by decide, by decide⟩

/-- C8 (amended): an appearance of the marker token in a selector
component not of the guest-code form, in a declaration property, in
at-rule params, or in a declaration value not beginning with the
marker, raises the invalid-use error positioned at the first occurrence
of the token lying outside complete quoted string literals — the check
masks such literals before searching, so on quote-free text the error
sits at the literal first occurrence, and the reported index is the
first position carrying the token with no earlier one. -/
theorem c8_invalid_marker_positions (l sel value : List Char)
    (off start i : Nat) :
    ((∀ c ∈ l, (c == Char.ofNat 39) = false ∧ (c == Char.ofNat 34) = false) →
      checkInvalidAtJs l off = (firstAtJs l).map (off + ·))
  ∧ (firstAtJs l = some i →
      hasAtJsHead (l.drop i) = true ∧
        ∀ j, j < i → hasAtJsHead (l.drop j) = false)
  ∧ (declValueAtJs value = true → declValueCheck value off = none)
  ∧ (declValueAtJs value = false →
      declValueCheck value off = checkInvalidAtJs value off)
  ∧ (selIsJsForm sel = false →
      selectorCheck sel start = checkInvalidAtJs sel start) := by
  refine ⟨?_, firstAtJs_spec l i, ?_, ?_, ?_⟩
  · intro h
    simp only [checkInvalidAtJs]
    rw [maskQuoted_no_quotes l h]
  · intro h
    simp [declValueCheck, h]
  · intro h
    simp [declValueCheck, h]
  · intro h
    simp [selectorCheck, h]

theorem c8_witness :
    (∀ c ∈ (['x', ' ', '@', 'j', 's'] : List Char),
      (c == Char.ofNat 39) = false ∧ (c == Char.ofNat 34) = false)
  ∧ checkInvalidAtJs ['x', ' ', '@', 'j', 's'] 10 = some 12 := by
  refine ⟨by decide, ?_⟩
  have h := (c8_invalid_marker_positions ['x', ' ', '@', 'j', 's'] [] []
    10 0 0).1 (by decide)
  rw [h]
  decide

theorem locWalk_mkChain (offs : List OffField) (sid : Nat) :
    ∀ (acc : Int) (z : Bool),
      locWalk (mkChain offs (Loc.lsource sid)) acc z =
        (Loc.lsource sid, acc + chainSum offs, z || chainNull offs) := by
  induction offs with
  | nil =>
    intro acc z
    simp [mkChain, locWalk, chainSum, chainNull]
  | cons o os ih =>
    intro acc z
    cases o <;>
      simp [mkChain, locWalk, chainSum, chainNull, ih, add_assoc,
        Bool.or_assoc]

theorem computeLocFrom_mkChain (offs : List OffField) (sid : Nat)
    (base : CLoc) (rel : Int) :
    computeLocFrom (mkChain offs (Loc.lsource sid)) base rel =
      { source := some sid, offset := chainSum offs,
        inc := !(chainNull offs) } := by
  simp [computeLocFrom, locWalk_mkChain offs sid 0 false]

/-- C9: in the source map of a provenance-tracked leaf, the source
offset of each character is the sum of the offset fields of the tagged
ancestors along its path (plus the character's index when the
per-character increment is 1), and a null offset on any ancestor makes
the increment zero, so every character of the subtree's flattened text
maps to the same accumulated offset — independent of the surrounding
traversal state, that is, of the leaf's position within the final
text. -/
theorem c9_offset_accumulation (offs : List OffField) (sid : Nat)
    (s : List Char) (cl : CLoc) (start : Nat) (st : FSt) :
    (goItem cl start st
        (NCode.code (mkChain offs (Loc.lsource sid)) [NCode.text s]) =
      { cursor := st.cursor +
          s.length * (if chainNull offs = true then 0 else 1),
        position := st.position + s.length,
        omap := st.omap ++ (List.range s.length).map
          fun i => (st.position + i, sid,
            chainSum offs +
              ((i * (if chainNull offs = true then 0 else 1) : Nat) :
                Int)) })
  ∧ (chainNull offs = true →
      goItem cl start st
          (NCode.code (mkChain offs (Loc.lsource sid)) [NCode.text s]) =
        { cursor := st.cursor,
          position := st.position + s.length,
          omap := st.omap ++ (List.range s.length).map
            fun i => (st.position + i, sid, chainSum offs) }) := by
  have hmain : goItem cl start st
      (NCode.code (mkChain offs (Loc.lsource sid)) [NCode.text s]) =
      { cursor := st.cursor +
          s.length * (if chainNull offs = true then 0 else 1),
        position := st.position + s.length,
        omap := st.omap ++ (List.range s.length).map
          fun i => (st.position + i, sid,
            chainSum offs +
              ((i * (if chainNull offs = true then 0 else 1) : Nat) :
                Int)) } := by
    rw [goItem]
    rw [computeLocFrom_mkChain]
    rw [goList]
    rw [goItem]
    rw [goList]
    cases hz : chainNull offs <;> simp [hz]
  refine ⟨hmain, ?_⟩
  intro hz
  rw [hmain]
  simp [hz]

theorem c9_witness :
    chainNull [OffField.num 5, OffField.onull, OffField.num 3] = true
  ∧ goItem initCL 0 { cursor := 0, position := 0, omap := [] }
      (NCode.code
        (mkChain [OffField.num 5, OffField.onull, OffField.num 3]
          (Loc.lsource 2))
        [NCode.text ['a', 'b']]) =
    { cursor := 0, position := 2, omap := [(0, 2, 8), (1, 2, 8)] } := by
  refine ⟨by decide, ?_⟩
  rw [(c9_offset_accumulation
    [OffField.num 5, OffField.onull, OffField.num 3] 2 ['a', 'b']
    initCL 0 { cursor := 0, position := 0, omap := [] }).2 (by decide)]
  decide

end AtJs
